import Mathlib

/-!
Verification of the CSS clean-up utilities (`tools/clean-up-css/css_utils.py`).

Stylesheet and markup texts are modelled as lists of characters.  Every
regular-expression scan of the Python source is modelled by a fuel-indexed
scanner that mirrors the semantics of `re.findall` / `re.sub` for the one
concrete pattern appearing in the source: at each position the scanner
attempts the pattern; on success it records the capture group and resumes
right after the matched span, on failure it advances one character.  Fuel
equal to the length of the input always suffices because every step
consumes at least one character; the fuel presentation keeps every
function structurally recursive, hence evaluable by the kernel.

The filesystem that `get_used_classes` walks is modelled by association
lists: regular files with their contents, directories with the list of
file paths a recursive walk yields, and glob patterns with their list of
matches.  `os.walk` hands back base names whose `.html`/`.js` suffix test
is equivalent to the same test on the joined path, so the walk listing
holds full paths.  A path that appears in a directory listing but carries
no content models the file that disappears between discovery and read:
the source skips it silently, and so does the embedding.  Python sets are
modelled by lists whose consumers are membership-insensitive to order and
duplication, together with their `Finset` image for the set-level
statements; the call sites of the report function pass deduplicated data,
which the corresponding theorems record as a `Nodup` hypothesis.  The
stylesheet parameter of `get_css_classes`, `find_unused_classes` and
`remove_unused_from_css` stands for the text of the file the source reads
and rewrites at the given path; the theorems quantify over that text.
-/

namespace CssUtils

/-- Character class `[a-zA-Z]` of the extraction regexes. -/
def letterChar (c : Char) : Bool :=
  decide (('a' ≤ c ∧ c ≤ 'z') ∨ ('A' ≤ c ∧ c ≤ 'Z'))

/-- Character class `[a-zA-Z0-9_-]` continuing an identifier-like token. -/
def identChar (c : Char) : Bool :=
  letterChar c || decide (('0' ≤ c ∧ c ≤ '9') ∨ c = '_' ∨ c = '-')

/-- ASCII whitespace, as matched by the `\s` class and split on by `str.split()`. -/
def spaceChar (c : Char) : Bool :=
  decide (c = ' ' ∨ c = '\t' ∨ c = '\n' ∨ c = '\r' ∨ c = '\x0b' ∨ c = '\x0c')

/-- Scanner for the loose pattern `\.([a-zA-Z][a-zA-Z0-9_-]*)` used by
`get_css_classes` when `ignore_comments` is false. -/
def scanLooseF : Nat → List Char → List (List Char)
  | 0, _ => []
  | _ + 1, [] => []
  | fuel + 1, x :: xs =>
    if x = '.' then
      match xs with
      | c :: rest =>
        if letterChar c then
          (c :: rest.takeWhile identChar) :: scanLooseF fuel (rest.dropWhile identChar)
        else
          scanLooseF fuel xs
      | [] => []
    else
      scanLooseF fuel xs

/-- Loose selector scan with adequate fuel. -/
def scanLoose (l : List Char) : List (List Char) :=
  scanLooseF l.length l

/-- Scanner for the strict pattern `\.([a-zA-Z][a-zA-Z0-9_-]*)\s*[,{]` used by
`get_css_classes` when `ignore_comments` is true. -/
def scanStrictF : Nat → List Char → List (List Char)
  | 0, _ => []
  | _ + 1, [] => []
  | fuel + 1, x :: xs =>
    if x = '.' then
      match xs with
      | c :: rest =>
        if letterChar c then
          match (rest.dropWhile identChar).dropWhile spaceChar with
          | d :: rest2 =>
            if d = ',' ∨ d = '\x7b' then
              (c :: rest.takeWhile identChar) :: scanStrictF fuel rest2
            else
              scanStrictF fuel xs
          | [] => scanStrictF fuel xs
        else
          scanStrictF fuel xs
      | [] => []
    else
      scanStrictF fuel xs

/-- Strict selector scan with adequate fuel. -/
def scanStrict (l : List Char) : List (List Char) :=
  scanStrictF l.length l

/-- Remainder after the first `*/` close delimiter, if any; models the
non-greedy tail `.*?\*/` of the block comment pattern. -/
def dropToClose : List Char → Option (List Char)
  | '*' :: '/' :: rest => some rest
  | _ :: rest => dropToClose rest
  | [] => none

/-- Scanner for `re.sub(r"/\*.*?\*/", "", content, flags=re.DOTALL)`:
each block comment up to its nearest close is removed; an unclosed
opener matches nothing and is kept. -/
def stripBlockCommentsF : Nat → List Char → List Char
  | 0, l => l
  | _ + 1, [] => []
  | fuel + 1, '/' :: '*' :: rest =>
    match dropToClose rest with
    | some rest2 => stripBlockCommentsF fuel rest2
    | none => '/' :: stripBlockCommentsF fuel ('*' :: rest)
  | fuel + 1, c :: rest => c :: stripBlockCommentsF fuel rest

/-- Block comment removal with adequate fuel. -/
def stripBlockComments (l : List Char) : List Char :=
  stripBlockCommentsF l.length l

/-- Scanner for `re.sub(r"//.*", "", content)`: from every `//` the rest of
the line is removed (`.` does not cross newlines here). -/
def stripLineCommentsF : Nat → List Char → List Char
  | 0, l => l
  | _ + 1, [] => []
  | fuel + 1, '/' :: '/' :: rest =>
    stripLineCommentsF fuel (rest.dropWhile fun c => !(c == '\n'))
  | fuel + 1, c :: rest => c :: stripLineCommentsF fuel rest

/-- Line comment removal with adequate fuel. -/
def stripLineComments (l : List Char) : List Char :=
  stripLineCommentsF l.length l

/-- Helper of `splitWs`: accumulates the current token reversed. -/
def splitWsAux : List Char → List Char → List (List Char)
  | cur, [] => if cur.isEmpty then [] else [cur.reverse]
  | cur, c :: rest =>
    if spaceChar c then
      if cur.isEmpty then splitWsAux [] rest else cur.reverse :: splitWsAux [] rest
    else
      splitWsAux (c :: cur) rest

/-- Python `str.split()`: split on whitespace runs, dropping empty pieces. -/
def splitWs (l : List Char) : List (List Char) :=
  splitWsAux [] l

/-- Scanner for `re.findall(r'class="([^"]*)"', content)`. -/
def scanClassAttrF : Nat → List Char → List (List Char)
  | 0, _ => []
  | _ + 1, [] => []
  | fuel + 1, 'c' :: 'l' :: 'a' :: 's' :: 's' :: '=' :: '"' :: rest =>
    match rest.dropWhile (fun c => !(c == '"')) with
    | _ :: rest2 => rest.takeWhile (fun c => !(c == '"')) :: scanClassAttrF fuel rest2
    | [] => scanClassAttrF fuel ('l' :: 'a' :: 's' :: 's' :: '=' :: '"' :: rest)
  | fuel + 1, _ :: rest => scanClassAttrF fuel rest

/-- Attribute scan `class="..."` with adequate fuel. -/
def scanClassAttr (l : List Char) : List (List Char) :=
  scanClassAttrF l.length l

/-- Scanner for `re.findall(r'className="([^"]*)"', content)`. -/
def scanClassNameAttrF : Nat → List Char → List (List Char)
  | 0, _ => []
  | _ + 1, [] => []
  | fuel + 1, 'c' :: 'l' :: 'a' :: 's' :: 's' :: 'N' :: 'a' :: 'm' :: 'e' :: '=' :: '"' :: rest =>
    match rest.dropWhile (fun c => !(c == '"')) with
    | _ :: rest2 => rest.takeWhile (fun c => !(c == '"')) :: scanClassNameAttrF fuel rest2
    | [] =>
      scanClassNameAttrF fuel
        ('l' :: 'a' :: 's' :: 's' :: 'N' :: 'a' :: 'm' :: 'e' :: '=' :: '"' :: rest)
  | fuel + 1, _ :: rest => scanClassNameAttrF fuel rest

/-- Attribute scan `className="..."` with adequate fuel. -/
def scanClassNameAttr (l : List Char) : List (List Char) :=
  scanClassNameAttrF l.length l

/-- Alternation `(?:add|remove|toggle|contains)\(` right after `classList.`. -/
def matchMethodParen (l : List Char) : Option (List Char) :=
  if List.isPrefixOf ['a', 'd', 'd', '('] l then some (l.drop 4)
  else if List.isPrefixOf ['r', 'e', 'm', 'o', 'v', 'e', '('] l then some (l.drop 7)
  else if List.isPrefixOf ['t', 'o', 'g', 'g', 'l', 'e', '('] l then some (l.drop 7)
  else if List.isPrefixOf ['c', 'o', 'n', 't', 'a', 'i', 'n', 's', '('] l then some (l.drop 9)
  else none

/-- Character that is neither kind of quote, the class `[^\'"]`. -/
def notQuote (c : Char) : Bool :=
  !(c == '\'' || c == '"')

/-- Tail of the classList pattern after `classList.`: a method name, an open
parenthesis, optional whitespace, a quote, a nonempty quote-free capture and
a closing quote; returns the capture with the remainder after the match. -/
def classListCapture (l : List Char) : Option (List Char × List Char) :=
  match matchMethodParen l with
  | none => none
  | some r1 =>
    match r1.dropWhile spaceChar with
    | [] => none
    | q :: r3 =>
      if q = '\'' ∨ q = '"' then
        match r3.takeWhile notQuote, r3.dropWhile notQuote with
        | [], _ => none
        | cap, _ :: r4 => some (cap, r4)
        | _, [] => none
      else none

/-- Scanner for
`re.findall(r'classList\.(?:add|remove|toggle|contains)\(\s*[\'"]([^\'"]+)[\'"]', content)`. -/
def scanClassListF : Nat → List Char → List (List Char)
  | 0, _ => []
  | _ + 1, [] => []
  | fuel + 1, 'c' :: 'l' :: 'a' :: 's' :: 's' :: 'L' :: 'i' :: 's' :: 't' :: '.' :: rest =>
    match classListCapture rest with
    | some capRest => capRest.1 :: scanClassListF fuel capRest.2
    | none =>
      scanClassListF fuel ('l' :: 'a' :: 's' :: 's' :: 'L' :: 'i' :: 's' :: 't' :: '.' :: rest)
  | fuel + 1, _ :: rest => scanClassListF fuel rest

/-- Dynamic classList scan with adequate fuel. -/
def scanClassList (l : List Char) : List (List Char) :=
  scanClassListF l.length l

/-- Attempt of the removal pattern `\s*\.{cls}\s*{[^}]*}` at the start of
`l`; on success returns the remainder after the matched span. -/
def ruleMatchAt (cls : List Char) (l : List Char) : Option (List Char) :=
  match l.dropWhile spaceChar with
  | '.' :: l2 =>
    if List.isPrefixOf cls l2 then
      match (l2.drop cls.length).dropWhile spaceChar with
      | '\x7b' :: l4 =>
        match l4.dropWhile (fun c => !(c == '\x7d')) with
        | '\x7d' :: l5 => some l5
        | _ => none
      | _ => none
    else none
  | _ => none

/-- Scanner for `re.sub(rf"\s*\.{re.escape(cls)}\s*{{[^}}]*}}", "", content)`:
every match of the single-level rule pattern is removed. -/
def removeRuleF (cls : List Char) : Nat → List Char → List Char
  | 0, l => l
  | _ + 1, [] => []
  | fuel + 1, c :: rest =>
    match ruleMatchAt cls (c :: rest) with
    | some rest2 => removeRuleF cls fuel rest2
    | none => c :: removeRuleF cls fuel rest

/-- Rule removal for one class name with adequate fuel. -/
def removeRule (cls : List Char) (l : List Char) : List Char :=
  removeRuleF cls l.length l

/-- Filesystem seen by the usage extractor: regular files with contents,
directories with the file paths a recursive walk yields, and glob patterns
with their matches. -/
structure FileSystem where
  fileContents : List (String × String)
  dirListing : List (String × List String)
  globResults : List (String × List String)

/-- Models `os.path.isfile`. -/
def FileSystem.isFile (fs : FileSystem) (p : String) : Bool :=
  (fs.fileContents.lookup p).isSome

/-- Models `os.path.isdir`. -/
def FileSystem.isDir (fs : FileSystem) (p : String) : Bool :=
  (fs.dirListing.lookup p).isSome

/-- Models the files produced by `os.walk` over a directory, as full paths. -/
def FileSystem.walkFiles (fs : FileSystem) (p : String) : List String :=
  (fs.dirListing.lookup p).getD []

/-- Models `glob.glob` for a wildcard pattern. -/
def FileSystem.globMatches (fs : FileSystem) (p : String) : List String :=
  (fs.globResults.lookup p).getD []

/-- Test `"*" in path or "?" in path` of `expand_search_paths`. -/
def hasWildcard (p : String) : Bool :=
  p.toList.contains '*' || p.toList.contains '?'

/-- Models `expand_search_paths`: wildcard entries are replaced by their glob
matches, other entries pass through unchanged. -/
def expand_search_paths (fs : FileSystem) (paths : List String) : List String :=
  paths.flatMap fun p => if hasWildcard p then fs.globMatches p else [p]

/-- Test `file.endswith((".html", ".js"))` of the directory walk. -/
def endsWithHtmlOrJs (p : String) : Bool :=
  List.isSuffixOf ['.', 'h', 't', 'm', 'l'] p.toList || List.isSuffixOf ['.', 'j', 's'] p.toList

/-- Models the `files_to_check` list of `get_used_classes`: an expanded entry
that is a file is used directly; one that is a directory contributes its
walked files with a recognized extension; anything else contributes nothing. -/
def filesToCheck (fs : FileSystem) (paths : List String) : List String :=
  (expand_search_paths fs paths).flatMap fun item =>
    if fs.isFile item then [item]
    else if fs.isDir item then (fs.walkFiles item).filter endsWithHtmlOrJs
    else []

/-- Class names one scanned file contributes to `used_classes`: split
`class="..."` values, whole classList captures, split `className="..."` values. -/
def extractUsedList (content : String) : List String :=
  ((scanClassAttr content.toList).flatMap splitWs
      ++ scanClassList content.toList
      ++ (scanClassNameAttr content.toList).flatMap splitWs).map fun l => String.mk l

/-- One iteration of the scanning loop of `get_used_classes`: a path whose
content is present contributes its extracted classes, a missing one is
silently skipped. -/
def usedStep (fs : FileSystem) (acc : List String) (p : String) : List String :=
  match fs.fileContents.lookup p with
  | some c => acc ++ extractUsedList c
  | none => acc

/-- Models `get_used_classes` at the level of the accumulated list. -/
def get_used_class_list (fs : FileSystem) (paths : List String) : List String :=
  (filesToCheck fs paths).foldl (usedStep fs) []

/-- The UsageSet: members of the accumulated list, as a set. -/
def get_used_classes (fs : FileSystem) (paths : List String) : Finset String :=
  (get_used_class_list fs paths).toFinset

/-- Models `get_css_classes` at the level of the found-match list: with
`ignore_comments` both comment substitutions run first and the strict
pattern scans the result; otherwise the loose pattern scans the raw text. -/
def get_css_class_list (content : String) (ignoreComments : Bool) : List String :=
  if ignoreComments then
    ((scanStrict (stripLineComments (stripBlockComments content.toList))).map
        fun l => String.mk l).dedup
  else
    ((scanLoose content.toList).map fun l => String.mk l).dedup

/-- The SelectorSet returned by `get_css_classes`. -/
def get_css_classes (content : String) (ignoreComments : Bool) : Finset String :=
  (get_css_class_list content ignoreComments).toFinset

/-- Boolean lexicographic comparison on character lists, mirroring how Python
compares strings code point by code point. -/
def listLeChars : List Char → List Char → Bool
  | [], _ => true
  | _ :: _, [] => false
  | a :: as, b :: bs => if a < b then true else if b < a then false else listLeChars as bs

/-- Boolean string comparison used so that sorting stays kernel-evaluable. -/
def strLe (a b : String) : Bool :=
  listLeChars a.toList b.toList

/-- Agreement of `listLeChars` with the lexicographic strict order. -/
theorem listLeChars_iff_not_lex :
    ∀ as bs : List Char, listLeChars as bs = true ↔ ¬ List.Lex (· < ·) bs as
  | [], bs => by
    constructor
    · intro _
      exact List.Lex.not_nil_right _ _
    · intro _
      rfl
  | a :: as, [] => by
    constructor
    · intro h
      simp [listLeChars] at h
    · intro h
      exact absurd List.Lex.nil h
  | a :: as, b :: bs => by
    by_cases hab : a < b
    · simp only [listLeChars, if_pos hab, true_iff]
      intro h
      cases h with
      | rel h' => exact absurd hab (asymm h')
      | cons h' => exact lt_irrefl a hab
    · by_cases hba : b < a
      · simp only [listLeChars, if_neg hab, if_pos hba]
        constructor
        · intro h
          simp at h
        · intro h
          exact absurd (List.Lex.rel hba) h
      · have heq : a = b := le_antisymm (not_lt.mp hba) (not_lt.mp hab)
        subst heq
        simp only [listLeChars, if_neg hab, if_neg hba]
        rw [listLeChars_iff_not_lex as bs]
        constructor
        · intro h hl
          cases hl with
          | rel h' => exact lt_irrefl a h'
          | cons h' => exact h h'
        · intro h hl
          exact h (List.Lex.cons hl)

/-- Agreement of `strLe` with the string order that `sorted` uses. -/
theorem strLe_iff (a b : String) : strLe a b = true ↔ a ≤ b := by
  rw [← not_lt]
  rw [String.lt_iff_toList_lt]
  exact listLeChars_iff_not_lex a.toList b.toList

/-- Kernel-evaluable decidability of the string order. -/
def strLeDec : DecidableRel ((· ≤ ·) : String → String → Prop) := fun a b =>
  decidable_of_iff (strLe a b = true) (strLe_iff a b)

/-- Python `sorted` on strings: the ascending reordering. -/
def sortStrings (l : List String) : List String :=
  @List.insertionSort String (· ≤ ·) strLeDec l

/-- Models `find_unused_classes`: the sorted difference of the SelectorSet
and the UsageSet. -/
def find_unused_classes (fs : FileSystem) (content : String) (paths : List String)
    (ignoreComments : Bool) : List String :=
  let used := get_used_class_list fs paths
  sortStrings ((get_css_class_list content ignoreComments).filter fun s => !(decide (s ∈ used)))

/-- Message printed when no unused class is found. -/
def noUnusedMessage : String :=
  "Не найдено неиспользуемых стилей!"

/-- Head of the message printed when unused classes are found. -/
def foundMessage (n : Nat) : String :=
  "Найдено " ++ toString n ++ " неиспользуемых классов:"

/-- Observable outcome of `remove_unused_from_css`: the stylesheet content
after the call, whether the file was rewritten, and the first message. -/
structure RemoveResult where
  newContent : String
  wrote : Bool
  message : String
  deriving DecidableEq

/-- Models `remove_unused_from_css`: the unused set is recomputed with
`ignore_comments=False`; when empty, the function reports and returns
without touching the file, otherwise each unused class has its rule
pattern erased and the file is rewritten. -/
def remove_unused_from_css (fs : FileSystem) (content : String) (paths : List String) :
    RemoveResult :=
  let unused := find_unused_classes fs content paths false
  if unused.isEmpty then
    { newContent := content, wrote := false, message := noUnusedMessage }
  else
    { newContent := String.mk (unused.foldl (fun acc cls => removeRule cls.toList acc) content.toList)
      wrote := true
      message := foundMessage unused.length }

/-- Substring test, Python `needle in hay` on strings. -/
def containsSeq (needle : List Char) : List Char → Bool
  | [] => needle.isEmpty
  | c :: rest => List.isPrefixOf needle (c :: rest) || containsSeq needle rest

/-- Predicate of the animation bucket: `"anim" in cls or "fade" in cls or "slide" in cls`. -/
def animRelated (s : String) : Bool :=
  containsSeq ['a', 'n', 'i', 'm'] s.toList || containsSeq ['f', 'a', 'd', 'e'] s.toList
    || containsSeq ['s', 'l', 'i', 'd', 'e'] s.toList

/-- Named buckets of `print_unused_analysis` with their membership predicates,
in source order. -/
def categoryDefs : List (String × (String → Bool)) :=
  [(("Кнопки"), fun s => List.isPrefixOf ['b', 't', 'n', '-'] s.toList),
   (("Карточки"), fun s => List.isPrefixOf ['c', 'a', 'r', 'd'] s.toList),
   (("Контент"), fun s => List.isPrefixOf ['c', 'o', 'n', 't', 'e', 'n', 't', '-'] s.toList),
   (("Формы"), fun s => List.isPrefixOf ['f', 'o', 'r', 'm', '-'] s.toList),
   (("Фичи"), fun s => List.isPrefixOf ['f', 'e', 'a', 't', 'u', 'r', 'e', '-'] s.toList),
   (("FAQ"), fun s => List.isPrefixOf ['f', 'a', 'q', '-'] s.toList),
   (("Футер"), fun s => List.isPrefixOf ['f', 'o', 'o', 't', 'e', 'r'] s.toList),
   (("Навигация"), fun s => List.isPrefixOf ['n', 'a', 'v'] s.toList),
   (("Секции"), fun s => List.isPrefixOf ['s', 'e', 'c', 't', 'i', 'o', 'n'] s.toList),
   (("Анимации"), animRelated)]

/-- Bucket contents computed by `print_unused_analysis` before printing: each
named bucket filters the input by its predicate, and the final catch-all
collects every class no predicate matched.  The call site feeds the
function distinct class names, for which the by-value membership test of
the source coincides with this predicate test. -/
def categoriesOf (unused : List String) : List (String × List String) :=
  (categoryDefs.map fun pr => (pr.1, unused.filter pr.2))
    ++ [(("Другое"), unused.filter fun cls => !(categoryDefs.any fun pr => pr.2 cls))]

/-- Printed report: every non-empty bucket with its classes sorted. -/
def print_unused_analysis (unused : List String) : List (String × List String) :=
  (categoriesOf unused).filterMap fun pr =>
    if pr.2.isEmpty then none else some (pr.1, sortStrings pr.2)

/-- Total count printed at the end of the report, `len(unused)`. -/
def reportTotal (unused : List String) : Nat :=
  unused.length

/-- Prepend a regular file with the given content, shadowing any previous
content for the same path. -/
def setFileContent (fs : FileSystem) (p : String) (c : String) : FileSystem :=
  { fs with fileContents := (p, c) :: fs.fileContents }

/-- Identifier-like syntax of the data model: letters, digits, hyphen,
underscore, starting with a letter. -/
def isValidClassName (s : String) : Bool :=
  match s.toList with
  | [] => false
  | c :: t => letterChar c && t.all identChar

/-! ### Character facts -/

theorem letterChar_ne_dot {c : Char} (h : letterChar c = true) : c ≠ '.' := by
  rintro rfl
  exact absurd h (by decide)

theorem identChar_ne_dot {c : Char} (h : identChar c = true) : c ≠ '.' := by
  rintro rfl
  exact absurd h (by decide)

theorem spaceChar_ne_dot {c : Char} (h : spaceChar c = true) : c ≠ '.' := by
  rintro rfl
  exact absurd h (by decide)

/-! ### Fuel irrelevance and unfolding for the selector scanners -/

theorem scanLooseF_succ :
    ∀ fuel l, l.length ≤ fuel → scanLooseF (fuel + 1) l = scanLooseF fuel l := by
  intro fuel
  induction fuel with
  | zero =>
    intro l hl
    have hnil : l = [] := List.length_eq_zero.mp (Nat.le_zero.mp hl)
    subst hnil
    rfl
  | succ f ih =>
    intro l hl
    cases l with
    | nil => rfl
    | cons x xs =>
      have hxs : xs.length ≤ f := by
        have := hl
        simp only [List.length_cons] at this
        omega
      by_cases hx : x = '.'
      · subst hx
        cases xs with
        | nil => rfl
        | cons c rest =>
          have hrest : rest.length + 1 ≤ f := by
            simpa [List.length_cons] using hxs
          by_cases hc : letterChar c
          · have hdw : (rest.dropWhile identChar).length ≤ f :=
              le_trans (List.Sublist.length_le (List.dropWhile_sublist identChar)) (by omega)
            simp only [scanLooseF, hc, if_pos rfl, if_true]
            rw [ih _ hdw]
          · simp only [scanLooseF, hc, if_pos rfl, if_false]
            exact ih _ hxs
      · simp only [scanLooseF, if_neg hx]
        exact ih _ hxs

theorem scanLooseF_eq_scanLoose :
    ∀ k fuel l, fuel = l.length + k → scanLooseF fuel l = scanLoose l := by
  intro k
  induction k with
  | zero =>
    intro fuel l h
    simp only [Nat.add_zero] at h
    subst h
    rfl
  | succ n ih =>
    intro fuel l h
    subst h
    have h1 : scanLooseF (l.length + n + 1) l = scanLooseF (l.length + n) l :=
      scanLooseF_succ _ _ (by omega)
    rw [show l.length + (n + 1) = l.length + n + 1 by omega, h1]
    exact ih _ _ rfl

theorem scanLooseF_adequate {fuel : Nat} {l : List Char} (h : l.length ≤ fuel) :
    scanLooseF fuel l = scanLoose l := by
  obtain ⟨k, hk⟩ := Nat.le.dest h
  exact scanLooseF_eq_scanLoose k fuel l (by omega)

theorem scanLoose_nil : scanLoose [] = [] := rfl

theorem scanLoose_cons_ne {x : Char} {xs : List Char} (h : x ≠ '.') :
    scanLoose (x :: xs) = scanLoose xs := by
  show scanLooseF (xs.length + 1) (x :: xs) = scanLoose xs
  simp only [scanLooseF, if_neg h]
  rfl

theorem scanLoose_dot_nonletter {c : Char} {rest : List Char} (h : letterChar c = false) :
    scanLoose ('.' :: c :: rest) = scanLoose (c :: rest) := by
  show scanLooseF (rest.length + 2) ('.' :: c :: rest) = scanLoose (c :: rest)
  simp only [scanLooseF, if_pos rfl, h, if_false]
  rfl

theorem scanLoose_dot_letter {c : Char} {rest : List Char} (h : letterChar c = true) :
    scanLoose ('.' :: c :: rest) =
      (c :: rest.takeWhile identChar) :: scanLoose (rest.dropWhile identChar) := by
  show scanLooseF (rest.length + 2) ('.' :: c :: rest) = _
  simp only [scanLooseF, if_pos rfl, h, if_true]
  rw [scanLooseF_adequate
    (le_trans (List.Sublist.length_le (List.dropWhile_sublist identChar)) (by omega))]

theorem scanStrictF_succ :
    ∀ fuel l, l.length ≤ fuel → scanStrictF (fuel + 1) l = scanStrictF fuel l := by
  intro fuel
  induction fuel with
  | zero =>
    intro l hl
    have hnil : l = [] := List.length_eq_zero.mp (Nat.le_zero.mp hl)
    subst hnil
    rfl
  | succ f ih =>
    intro l hl
    cases l with
    | nil => rfl
    | cons x xs =>
      have hxs : xs.length ≤ f := by
        have := hl
        simp only [List.length_cons] at this
        omega
      by_cases hx : x = '.'
      · subst hx
        cases xs with
        | nil => rfl
        | cons c rest =>
          have hrest : rest.length + 1 ≤ f := by
            simpa [List.length_cons] using hxs
          by_cases hc : letterChar c
          · cases hdw : (rest.dropWhile identChar).dropWhile spaceChar with
            | nil =>
              simp only [scanStrictF, hc, if_pos rfl, if_true, hdw]
              exact ih _ hxs
            | cons d rest2 =>
              have hr2 : rest2.length ≤ f := by
                have h1 : ((rest.dropWhile identChar).dropWhile spaceChar).length ≤ rest.length :=
                  le_trans (List.Sublist.length_le (List.dropWhile_sublist spaceChar))
                    (List.Sublist.length_le (List.dropWhile_sublist identChar))
                rw [hdw] at h1
                simp only [List.length_cons] at h1
                omega
              by_cases hd : d = ',' ∨ d = '\x7b'
              · simp only [scanStrictF, hc, if_pos rfl, if_true, hdw, hd, if_pos]
                rw [ih _ hr2]
              · simp only [scanStrictF, hc, if_pos rfl, if_true, hdw, hd, if_neg, if_false]
                exact ih _ hxs
          · simp only [scanStrictF, hc, if_pos rfl, if_false]
            exact ih _ hxs
      · simp only [scanStrictF, if_neg hx]
        exact ih _ hxs

theorem scanStrictF_eq_scanStrict :
    ∀ k fuel l, fuel = l.length + k → scanStrictF fuel l = scanStrict l := by
  intro k
  induction k with
  | zero =>
    intro fuel l h
    simp only [Nat.add_zero] at h
    subst h
    rfl
  | succ n ih =>
    intro fuel l h
    subst h
    have h1 : scanStrictF (l.length + n + 1) l = scanStrictF (l.length + n) l :=
      scanStrictF_succ _ _ (by omega)
    rw [show l.length + (n + 1) = l.length + n + 1 by omega, h1]
    exact ih _ _ rfl

theorem scanStrictF_adequate {fuel : Nat} {l : List Char} (h : l.length ≤ fuel) :
    scanStrictF fuel l = scanStrict l := by
  obtain ⟨k, hk⟩ := Nat.le.dest h
  exact scanStrictF_eq_scanStrict k fuel l (by omega)

theorem scanStrict_nil : scanStrict [] = [] := rfl

theorem scanStrict_cons_ne {x : Char} {xs : List Char} (h : x ≠ '.') :
    scanStrict (x :: xs) = scanStrict xs := by
  show scanStrictF (xs.length + 1) (x :: xs) = scanStrict xs
  simp only [scanStrictF, if_neg h]
  rfl

theorem scanStrict_dot_nonletter {c : Char} {rest : List Char} (h : letterChar c = false) :
    scanStrict ('.' :: c :: rest) = scanStrict (c :: rest) := by
  show scanStrictF (rest.length + 2) ('.' :: c :: rest) = scanStrict (c :: rest)
  simp only [scanStrictF, if_pos rfl, h, if_false]
  rfl

theorem scanStrict_dot_letter_nil {c : Char} {rest : List Char} (h : letterChar c = true)
    (hdw : (rest.dropWhile identChar).dropWhile spaceChar = []) :
    scanStrict ('.' :: c :: rest) = scanStrict (c :: rest) := by
  show scanStrictF (rest.length + 2) ('.' :: c :: rest) = scanStrict (c :: rest)
  simp only [scanStrictF, if_pos rfl, h, if_true, hdw]
  rfl

theorem scanStrict_dot_letter_hit {c d : Char} {rest rest2 : List Char} (h : letterChar c = true)
    (hdw : (rest.dropWhile identChar).dropWhile spaceChar = d :: rest2)
    (hd : d = ',' ∨ d = '\x7b') :
    scanStrict ('.' :: c :: rest) = (c :: rest.takeWhile identChar) :: scanStrict rest2 := by
  show scanStrictF (rest.length + 2) ('.' :: c :: rest) = _
  simp only [scanStrictF, if_pos rfl, h, if_true, hdw, hd, if_pos]
  have hr2 : rest2.length ≤ rest.length + 1 := by
    have h1 : ((rest.dropWhile identChar).dropWhile spaceChar).length ≤ rest.length :=
      le_trans (List.Sublist.length_le (List.dropWhile_sublist spaceChar))
        (List.Sublist.length_le (List.dropWhile_sublist identChar))
    rw [hdw] at h1
    simp only [List.length_cons] at h1
    omega
  rw [scanStrictF_adequate hr2]

theorem scanStrict_dot_letter_miss {c d : Char} {rest rest2 : List Char} (h : letterChar c = true)
    (hdw : (rest.dropWhile identChar).dropWhile spaceChar = d :: rest2)
    (hd : ¬ (d = ',' ∨ d = '\x7b')) :
    scanStrict ('.' :: c :: rest) = scanStrict (c :: rest) := by
  show scanStrictF (rest.length + 2) ('.' :: c :: rest) = scanStrict (c :: rest)
  simp only [scanStrictF, if_pos rfl, h, if_true, hdw, hd, if_neg, if_false]
  rfl

/-! ### Skipping dot-free prefixes -/

theorem scanLoose_append_of_ne_dot :
    ∀ pre t : List Char, (∀ y ∈ pre, y ≠ '.') → scanLoose (pre ++ t) = scanLoose t
  | [], _, _ => rfl
  | y :: pre, t, h => by
    rw [List.cons_append, scanLoose_cons_ne (h y (List.mem_cons_self y pre))]
    exact scanLoose_append_of_ne_dot pre t fun z hz => h z (List.mem_cons_of_mem y hz)

theorem scanStrict_append_of_ne_dot :
    ∀ pre t : List Char, (∀ y ∈ pre, y ≠ '.') → scanStrict (pre ++ t) = scanStrict t
  | [], _, _ => rfl
  | y :: pre, t, h => by
    rw [List.cons_append, scanStrict_cons_ne (h y (List.mem_cons_self y pre))]
    exact scanStrict_append_of_ne_dot pre t fun z hz => h z (List.mem_cons_of_mem y hz)

theorem ident_run_ne_dot {c : Char} {rest : List Char} (hc : letterChar c = true) :
    ∀ y ∈ c :: rest.takeWhile identChar, y ≠ '.' := by
  intro y hy
  rcases List.mem_cons.mp hy with rfl | hy'
  · exact letterChar_ne_dot hc
  · exact identChar_ne_dot (List.mem_takeWhile_imp hy')

theorem ident_split (c : Char) (rest : List Char) :
    c :: rest = (c :: rest.takeWhile identChar) ++ rest.dropWhile identChar := by
  rw [List.cons_append, List.takeWhile_append_dropWhile]

/-! ### Every strict match is a loose match -/

theorem scanStrict_sub_aux :
    ∀ n l, l.length ≤ n → ∀ a, a ∈ scanStrict l → a ∈ scanLoose l := by
  intro n
  induction n with
  | zero =>
    intro l hl a ha
    have hnil : l = [] := List.length_eq_zero.mp (Nat.le_zero.mp hl)
    subst hnil
    simp [scanStrict_nil] at ha
  | succ f ih =>
    intro l hl a ha
    cases l with
    | nil => simp [scanStrict_nil] at ha
    | cons x xs =>
      have hxs : xs.length ≤ f := by
        simp only [List.length_cons] at hl
        omega
      by_cases hx : x = '.'
      · subst hx
        cases xs with
        | nil => exact absurd ha (by simp [show scanStrict ['.'] = [] from rfl])
        | cons c rest =>
          have hrest : rest.length ≤ f := by
            simp only [List.length_cons] at hxs
            omega
          have hdrop : (rest.dropWhile identChar).length ≤ f :=
            le_trans (List.Sublist.length_le (List.dropWhile_sublist identChar)) hrest
          by_cases hc : letterChar c = true
          · cases hdw : (rest.dropWhile identChar).dropWhile spaceChar with
            | nil =>
              rw [scanStrict_dot_letter_nil hc hdw, ident_split c rest,
                scanStrict_append_of_ne_dot _ _ (ident_run_ne_dot hc)] at ha
              rw [scanLoose_dot_letter hc]
              exact List.mem_cons_of_mem _ (ih _ hdrop a ha)
            | cons d rest2 =>
              by_cases hd : d = ',' ∨ d = '\x7b'
              · rw [scanStrict_dot_letter_hit hc hdw hd] at ha
                have hr2 : rest2.length ≤ f := by
                  have h1 :
                      ((rest.dropWhile identChar).dropWhile spaceChar).length ≤ rest.length :=
                    le_trans (List.Sublist.length_le (List.dropWhile_sublist spaceChar))
                      (List.Sublist.length_le (List.dropWhile_sublist identChar))
                  rw [hdw] at h1
                  simp only [List.length_cons] at h1
                  omega
                have hA : rest.dropWhile identChar
                    = (rest.dropWhile identChar).takeWhile spaceChar ++ (d :: rest2) := by
                  conv_lhs =>
                    rw [← List.takeWhile_append_dropWhile spaceChar (rest.dropWhile identChar)]
                  rw [hdw]
                have hdne : d ≠ '.' := by
                  rcases hd with rfl | rfl <;> decide
                have hLrw : scanLoose (rest.dropWhile identChar) = scanLoose rest2 := by
                  rw [hA,
                    scanLoose_append_of_ne_dot _ _
                      (fun y hy => spaceChar_ne_dot (List.mem_takeWhile_imp hy)),
                    scanLoose_cons_ne hdne]
                rw [scanLoose_dot_letter hc, hLrw]
                rcases List.mem_cons.mp ha with rfl | ha'
                · exact List.mem_cons_self _ _
                · exact List.mem_cons_of_mem _ (ih _ hr2 a ha')
              · rw [scanStrict_dot_letter_miss hc hdw hd, ident_split c rest,
                  scanStrict_append_of_ne_dot _ _ (ident_run_ne_dot hc)] at ha
                rw [scanLoose_dot_letter hc]
                exact List.mem_cons_of_mem _ (ih _ hdrop a ha)
          · rw [Bool.not_eq_true] at hc
            rw [scanStrict_dot_nonletter hc] at ha
            rw [scanLoose_dot_nonletter hc]
            exact ih _ hxs a ha
      · rw [scanStrict_cons_ne hx] at ha
        rw [scanLoose_cons_ne hx]
        exact ih _ hxs a ha

theorem scanStrict_subset_scanLoose {l : List Char} :
    ∀ a ∈ scanStrict l, a ∈ scanLoose l :=
  fun a ha => scanStrict_sub_aux l.length l le_rfl a ha

/-! ### Shape of every loose match -/

theorem scanLoose_shape_aux :
    ∀ n l, l.length ≤ n → ∀ a ∈ scanLoose l,
      ∃ c t, a = c :: t ∧ letterChar c = true ∧ t.all identChar = true := by
  intro n
  induction n with
  | zero =>
    intro l hl a ha
    have hnil : l = [] := List.length_eq_zero.mp (Nat.le_zero.mp hl)
    subst hnil
    simp [scanLoose_nil] at ha
  | succ f ih =>
    intro l hl a ha
    cases l with
    | nil => simp [scanLoose_nil] at ha
    | cons x xs =>
      have hxs : xs.length ≤ f := by
        simp only [List.length_cons] at hl
        omega
      by_cases hx : x = '.'
      · subst hx
        cases xs with
        | nil => exact absurd ha (by simp [show scanLoose ['.'] = [] from rfl])
        | cons c rest =>
          have hrest : rest.length ≤ f := by
            simp only [List.length_cons] at hxs
            omega
          by_cases hc : letterChar c = true
          · rw [scanLoose_dot_letter hc] at ha
            rcases List.mem_cons.mp ha with rfl | ha'
            · exact ⟨c, rest.takeWhile identChar, rfl, hc,
                List.all_eq_true.mpr fun x hx => List.mem_takeWhile_imp hx⟩
            · exact ih _ (le_trans
                (List.Sublist.length_le (List.dropWhile_sublist identChar)) hrest) a ha'
          · rw [Bool.not_eq_true] at hc
            rw [scanLoose_dot_nonletter hc] at ha
            exact ih _ hxs a ha
      · rw [scanLoose_cons_ne hx] at ha
        exact ih _ hxs a ha

theorem scanLoose_shape {l : List Char} :
    ∀ a ∈ scanLoose l, ∃ c t, a = c :: t ∧ letterChar c = true ∧ t.all identChar = true :=
  fun a ha => scanLoose_shape_aux l.length l le_rfl a ha

/-! ### Unfolded forms of the selector set -/

theorem get_css_class_list_true (content : String) :
    get_css_class_list content true
      = ((scanStrict (stripLineComments (stripBlockComments content.toList))).map
          fun l => String.mk l).dedup := rfl

theorem get_css_class_list_false (content : String) :
    get_css_class_list content false
      = ((scanLoose content.toList).map fun l => String.mk l).dedup := rfl

theorem get_css_class_list_nodup (content : String) (ic : Bool) :
    (get_css_class_list content ic).Nodup := by
  cases ic
  · rw [get_css_class_list_false]
    exact List.nodup_dedup _
  · rw [get_css_class_list_true]
    exact List.nodup_dedup _

/-! ### The unused list as a set difference -/

theorem find_unused_perm (fs : FileSystem) (content : String) (paths : List String) (ic : Bool) :
    List.Perm (find_unused_classes fs content paths ic)
      ((get_css_class_list content ic).filter
        fun s => !(decide (s ∈ get_used_class_list fs paths))) :=
  @List.perm_insertionSort String (· ≤ ·) strLeDec _

theorem find_unused_nodup (fs : FileSystem) (content : String) (paths : List String) (ic : Bool) :
    (find_unused_classes fs content paths ic).Nodup := by
  rw [(find_unused_perm fs content paths ic).nodup_iff]
  exact List.Nodup.filter _ (get_css_class_list_nodup content ic)

theorem mem_find_unused {fs : FileSystem} {content : String} {paths : List String} {ic : Bool}
    {x : String} :
    x ∈ find_unused_classes fs content paths ic
      ↔ x ∈ get_css_classes content ic ∧ x ∉ get_used_classes fs paths := by
  rw [(find_unused_perm fs content paths ic).mem_iff, List.mem_filter]
  simp [get_css_classes, get_used_classes, List.mem_toFinset]

theorem find_unused_toFinset (fs : FileSystem) (content : String) (paths : List String)
    (ic : Bool) :
    (find_unused_classes fs content paths ic).toFinset
      = get_css_classes content ic \ get_used_classes fs paths := by
  ext x
  rw [List.mem_toFinset, mem_find_unused, Finset.mem_sdiff]

theorem find_unused_length (fs : FileSystem) (content : String) (paths : List String)
    (ic : Bool) :
    (find_unused_classes fs content paths ic).length
      = (get_css_classes content ic \ get_used_classes fs paths).card := by
  rw [← find_unused_toFinset]
  exact (List.toFinset_card_of_nodup (find_unused_nodup fs content paths ic)).symm

theorem find_unused_eq_nil_of_subset (fs : FileSystem) (content : String) (paths : List String)
    (ic : Bool)
    (h : ∀ s ∈ get_css_class_list content ic, s ∈ get_used_class_list fs paths) :
    find_unused_classes fs content paths ic = [] := by
  have hfil : ((get_css_class_list content ic).filter
      fun s => !(decide (s ∈ get_used_class_list fs paths))) = [] :=
    List.filter_eq_nil_iff.mpr fun a ha => by simp [h a ha]
  show sortStrings ((get_css_class_list content ic).filter
      fun s => !(decide (s ∈ get_used_class_list fs paths))) = []
  rw [hfil]
  rfl

theorem remove_noop_of_empty (fs : FileSystem) (content : String) (paths : List String)
    (h : find_unused_classes fs content paths false = []) :
    remove_unused_from_css fs content paths
      = { newContent := content, wrote := false, message := noUnusedMessage } := by
  simp [remove_unused_from_css, h]

/-! ### Membership in the files-to-check list and in the usage fold -/

theorem mem_filesToCheck_cases {fs : FileSystem} {paths : List String} {q : String}
    (h : q ∈ filesToCheck fs paths) :
    q ∈ expand_search_paths fs paths ∨ endsWithHtmlOrJs q = true := by
  unfold filesToCheck at h
  rcases List.mem_flatMap.mp h with ⟨item, hitem, hq⟩
  by_cases h1 : fs.isFile item
  · rw [if_pos h1] at hq
    rcases List.mem_singleton.mp hq
    exact Or.inl hitem
  · rw [if_neg h1] at hq
    by_cases h2 : fs.isDir item
    · rw [if_pos h2] at hq
      exact Or.inr (List.mem_filter.mp hq).2
    · rw [if_neg h2] at hq
      simp at hq

theorem mem_filesToCheck_of_file {fs : FileSystem} {paths : List String} {q : String}
    (h1 : q ∈ expand_search_paths fs paths) (h2 : fs.isFile q = true) :
    q ∈ filesToCheck fs paths := by
  unfold filesToCheck
  exact List.mem_flatMap.mpr ⟨q, h1, by rw [if_pos h2]; exact List.mem_singleton_self q⟩

theorem mem_expand_of_plain (fs : FileSystem) {paths : List String} {p : String}
    (h1 : p ∈ paths) (h2 : hasWildcard p = false) :
    p ∈ expand_search_paths fs paths := by
  unfold expand_search_paths
  exact List.mem_flatMap.mpr ⟨p, h1, by simp [h2]⟩

theorem mem_foldl_usedStep_of_acc (fs : FileSystem) :
    ∀ (L acc : List String) (x : String), x ∈ acc → x ∈ L.foldl (usedStep fs) acc
  | [], _, _, hx => hx
  | q :: L, acc, x, hx => by
    simp only [List.foldl_cons]
    apply mem_foldl_usedStep_of_acc fs L
    unfold usedStep
    cases fs.fileContents.lookup q with
    | none => exact hx
    | some c => exact List.mem_append_left _ hx

theorem mem_foldl_usedStep_of_file (fs : FileSystem) :
    ∀ (L acc : List String) (q c x : String),
      q ∈ L → fs.fileContents.lookup q = some c → x ∈ extractUsedList c →
      x ∈ L.foldl (usedStep fs) acc
  | [], _, _, _, _, hq, _, _ => absurd hq (List.not_mem_nil _)
  | r :: L, acc, q, c, x, hq, hc, hx => by
    simp only [List.foldl_cons]
    rcases List.mem_cons.mp hq with rfl | hq'
    · apply mem_foldl_usedStep_of_acc
      unfold usedStep
      rw [hc]
      exact List.mem_append_right _ hx
    · exact mem_foldl_usedStep_of_file fs L _ q c x hq' hc hx

theorem mem_used_of_file {fs : FileSystem} {paths : List String} {q c x : String}
    (hq : q ∈ filesToCheck fs paths) (hc : fs.fileContents.lookup q = some c)
    (hx : x ∈ extractUsedList c) :
    x ∈ get_used_classes fs paths := by
  rw [get_used_classes, List.mem_toFinset]
  exact mem_foldl_usedStep_of_file fs _ [] q c x hq hc hx

/-! ### Content independence for files the scan never reads -/

theorem flatMap_congr_mem {α β : Type} {f g : α → List β} :
    ∀ l : List α, (∀ x ∈ l, f x = g x) → l.flatMap f = l.flatMap g
  | [], _ => rfl
  | x :: l, h => by
    simp only [List.flatMap_cons]
    rw [h x (List.mem_cons_self x l),
      flatMap_congr_mem l fun z hz => h z (List.mem_cons_of_mem x hz)]

theorem foldl_usedStep_congr (fs fs' : FileSystem) :
    ∀ (L acc : List String),
      (∀ q ∈ L, fs'.fileContents.lookup q = fs.fileContents.lookup q) →
      L.foldl (usedStep fs') acc = L.foldl (usedStep fs) acc
  | [], _, _ => rfl
  | q :: L, acc, h => by
    simp only [List.foldl_cons]
    have hstep : usedStep fs' acc q = usedStep fs acc q := by
      unfold usedStep
      rw [h q (List.mem_cons_self q L)]
    rw [hstep]
    exact foldl_usedStep_congr fs fs' L _ fun z hz => h z (List.mem_cons_of_mem q hz)

theorem lookup_setFileContent_ne {fs : FileSystem} {p c : String} {q : String} (h : q ≠ p) :
    (setFileContent fs p c).fileContents.lookup q = fs.fileContents.lookup q := by
  simp only [setFileContent, List.lookup_cons]
  rw [show (q == p) = false from beq_eq_false_iff_ne.mpr h]

theorem expand_setFileContent (fs : FileSystem) (p c : String) (paths : List String) :
    expand_search_paths (setFileContent fs p c) paths = expand_search_paths fs paths := rfl

theorem filesToCheck_setFileContent {fs : FileSystem} {p c : String} {paths : List String}
    (h : p ∉ expand_search_paths fs paths) :
    filesToCheck (setFileContent fs p c) paths = filesToCheck fs paths := by
  unfold filesToCheck
  rw [expand_setFileContent]
  apply flatMap_congr_mem
  intro item hitem
  have hne : item ≠ p := fun heq => h (heq ▸ hitem)
  have hfile : (setFileContent fs p c).isFile item = fs.isFile item := by
    unfold FileSystem.isFile
    rw [lookup_setFileContent_ne hne]
  rw [hfile]
  rfl

/-! ### Report helpers -/

theorem mem_print_of_mem_cat (unused : List String) (pr : String × List String) (cls : String)
    (hpr : pr ∈ categoriesOf unused) (hcls : cls ∈ pr.2) :
    ∃ q ∈ print_unused_analysis unused, cls ∈ q.2 := by
  refine ⟨(pr.1, sortStrings pr.2), ?_, ?_⟩
  · unfold print_unused_analysis
    apply List.mem_filterMap.mpr
    refine ⟨pr, hpr, ?_⟩
    have hne : pr.2.isEmpty = false := by
      rw [List.isEmpty_eq_false]
      intro hnil
      rw [hnil] at hcls
      exact List.not_mem_nil cls hcls
    simp [hne]
  · show cls ∈ sortStrings pr.2
    unfold sortStrings
    exact (@List.mem_insertionSort String (· ≤ ·) strLeDec _ _).mpr hcls

/-! ### Claim theorems -/

/-- Claim C1: for a stylesheet whose SelectorSet has N members, M of which are
referenced by at least one scanned usage file, `find_unused_classes` returns
exactly N - M class names, each absent from the UsageSet. -/
theorem claim1_find_unused_count (fs : FileSystem) (content : String) (paths : List String)
    (ic : Bool) (N M : Nat)
    (hN : (get_css_classes content ic).card = N)
    (hM : ((get_css_classes content ic) ∩ (get_used_classes fs paths)).card = M) :
    (find_unused_classes fs content paths ic).length = N - M
      ∧ ∀ x ∈ find_unused_classes fs content paths ic, x ∉ get_used_classes fs paths := by
  constructor
  · rw [find_unused_length]
    have hcard := Finset.card_sdiff_add_card_inter (get_css_classes content ic)
      (get_used_classes fs paths)
    omega
  · intro x hx
    exact (mem_find_unused.mp hx).2

/-- Witness for claim C1 at a two-rule stylesheet with one used class. -/
theorem claim1_witness :
    (get_css_classes (".a\x7bk\x7d.b\x7bk\x7d") true).card = 2
      ∧ ((get_css_classes (".a\x7bk\x7d.b\x7bk\x7d") true)
          ∩ (get_used_classes (FileSystem.mk [(("f.html"), ("class=\"a\""))] [] [])
              [("f.html")])).card = 1
      ∧ ((find_unused_classes (FileSystem.mk [(("f.html"), ("class=\"a\""))] [] [])
            (".a\x7bk\x7d.b\x7bk\x7d") [("f.html")] true).length = 2 - 1
          ∧ ∀ x ∈ find_unused_classes (FileSystem.mk [(("f.html"), ("class=\"a\""))] [] [])
              (".a\x7bk\x7d.b\x7bk\x7d") [("f.html")] true,
              x ∉ get_used_classes (FileSystem.mk [(("f.html"), ("class=\"a\""))] [] [])
                [("f.html")]) :=
  ⟨by decide, by decide,
    claim1_find_unused_count (FileSystem.mk [(("f.html"), ("class=\"a\""))] [] [])
      (".a\x7bk\x7d.b\x7bk\x7d") [("f.html")] true 2 1 (by decide) (by decide)⟩

/-- Claim C2 counterexample: on `.ab/*x*/c{` comment stripping glues `ab` and
`c` into the new token `abc`, which the comment-included mode never finds, so
the comment-excluded SelectorSet is not a subset of the comment-included one. -/
theorem claim2_counterexample :
    ¬ (get_css_classes (".ab/*x*/c\x7b") true ⊆ get_css_classes (".ab/*x*/c\x7b") false) := by
  decide

/-- Claim C2 as amended: on stylesheet texts that comment stripping leaves
unchanged (in particular any text without comment delimiters), the
comment-excluded SelectorSet is a subset of the comment-included one. -/
theorem claim2_amended_subset (content : String)
    (h : stripLineComments (stripBlockComments content.toList) = content.toList) :
    get_css_classes content true ⊆ get_css_classes content false := by
  intro x hx
  rw [get_css_classes, List.mem_toFinset, get_css_class_list_true, h, List.mem_dedup] at hx
  rw [get_css_classes, List.mem_toFinset, get_css_class_list_false, List.mem_dedup]
  rcases List.mem_map.mp hx with ⟨a, ha, rfl⟩
  exact List.mem_map_of_mem _ (scanStrict_subset_scanLoose a ha)

/-- Witness for the amended claim C2 on a comment-free stylesheet. -/
theorem claim2_witness :
    stripLineComments (stripBlockComments ((".a\x7bcolor:red\x7d").toList))
        = (".a\x7bcolor:red\x7d").toList
      ∧ get_css_classes (".a\x7bcolor:red\x7d") true
          ⊆ get_css_classes (".a\x7bcolor:red\x7d") false :=
  ⟨by decide, claim2_amended_subset (".a\x7bcolor:red\x7d") (by decide)⟩

/-- Claim C3 counterexample: on the stylesheet `.a.x{}b{c}` with no usage
files, the first pass removes `.x{}` and glues the text into `.ab{c}`; the
second pass then finds the fresh class `ab` unused and erases the whole rule,
so the stylesheet changes again after the first pass. -/
theorem claim3_counterexample :
    (remove_unused_from_css (FileSystem.mk [] [] [])
        ((remove_unused_from_css (FileSystem.mk [] [] [])
            (".a.x\x7b\x7db\x7bc\x7d") []).newContent) []).newContent
      ≠ (remove_unused_from_css (FileSystem.mk [] [] [])
          (".a.x\x7b\x7db\x7bc\x7d") []).newContent := by
  decide

/-- Claim C3 as amended: when every class token remaining in the rewritten
stylesheet is a used class, the second `remove_unused_from_css` pass computes
an empty unused set and performs no modification; without that condition the
removal can cut new selector tokens free and a second pass changes the file
again. -/
theorem claim3_amended_idempotent (fs : FileSystem) (content : String) (paths : List String)
    (h : get_css_classes (remove_unused_from_css fs content paths).newContent false
        ⊆ get_used_classes fs paths) :
    find_unused_classes fs (remove_unused_from_css fs content paths).newContent paths false = []
      ∧ remove_unused_from_css fs (remove_unused_from_css fs content paths).newContent paths
          = { newContent := (remove_unused_from_css fs content paths).newContent
              wrote := false
              message := noUnusedMessage } := by
  have hl : ∀ s ∈ get_css_class_list (remove_unused_from_css fs content paths).newContent false,
      s ∈ get_used_class_list fs paths := by
    intro s hs
    have hmem := h (by rw [get_css_classes, List.mem_toFinset]; exact hs)
    rwa [get_used_classes, List.mem_toFinset] at hmem
  have hnil := find_unused_eq_nil_of_subset fs _ paths false hl
  exact ⟨hnil, remove_noop_of_empty fs _ paths hnil⟩

/-- Witness for the amended claim C3: one used and one unused rule, where the
first pass removes the unused rule cleanly. -/
theorem claim3_witness :
    (get_css_classes (remove_unused_from_css (FileSystem.mk [(("f.html"), ("class=\"a\""))] [] [])
          (".a\x7bk:v\x7d.b\x7bk:v\x7d") [("f.html")]).newContent false
        ⊆ get_used_classes (FileSystem.mk [(("f.html"), ("class=\"a\""))] [] []) [("f.html")])
      ∧ (find_unused_classes (FileSystem.mk [(("f.html"), ("class=\"a\""))] [] [])
            (remove_unused_from_css (FileSystem.mk [(("f.html"), ("class=\"a\""))] [] [])
              (".a\x7bk:v\x7d.b\x7bk:v\x7d") [("f.html")]).newContent [("f.html")] false = []
          ∧ remove_unused_from_css (FileSystem.mk [(("f.html"), ("class=\"a\""))] [] [])
              (remove_unused_from_css (FileSystem.mk [(("f.html"), ("class=\"a\""))] [] [])
                (".a\x7bk:v\x7d.b\x7bk:v\x7d") [("f.html")]).newContent [("f.html")]
              = { newContent := (remove_unused_from_css
                    (FileSystem.mk [(("f.html"), ("class=\"a\""))] [] [])
                    (".a\x7bk:v\x7d.b\x7bk:v\x7d") [("f.html")]).newContent
                  wrote := false
                  message := noUnusedMessage }) :=
  ⟨by decide,
    claim3_amended_idempotent (FileSystem.mk [(("f.html"), ("class=\"a\""))] [] [])
      (".a\x7bk:v\x7d.b\x7bk:v\x7d") [("f.html")] (by decide)⟩

/-- Claim C4 counterexample: the UsageSet takes any whitespace-separated token
of a `class="..."` value, so `class="1a"` contributes `1a`, which does not
start with a letter. -/
theorem claim4_counterexample :
    ("1a") ∈ get_used_classes (FileSystem.mk [(("u.html"), ("class=\"1a\""))] [] []) [("u.html")]
      ∧ isValidClassName ("1a") = false := by
  decide

/-- Claim C4 as amended: every ClassName in a SelectorSet matches
identifier-like syntax (UsageSet entries are arbitrary tokens and need not). -/
theorem claim4_amended_selector_valid (content : String) (ic : Bool) (s : String)
    (h : s ∈ get_css_classes content ic) : isValidClassName s = true := by
  rw [get_css_classes, List.mem_toFinset] at h
  cases ic
  · rw [get_css_class_list_false, List.mem_dedup] at h
    rcases List.mem_map.mp h with ⟨a, ha, rfl⟩
    obtain ⟨c, t, rfl, hc, ht⟩ := scanLoose_shape a ha
    show (letterChar c && t.all identChar) = true
    rw [hc, ht]
    rfl
  · rw [get_css_class_list_true, List.mem_dedup] at h
    rcases List.mem_map.mp h with ⟨a, ha, rfl⟩
    obtain ⟨c, t, rfl, hc, ht⟩ := scanLoose_shape a (scanStrict_subset_scanLoose a ha)
    show (letterChar c && t.all identChar) = true
    rw [hc, ht]
    rfl

/-- Witness for the amended claim C4 at a concrete selector. -/
theorem claim4_witness :
    ("btn") ∈ get_css_classes (".btn\x7bk\x7d") true ∧ isValidClassName ("btn") = true :=
  ⟨by decide, claim4_amended_selector_valid (".btn\x7bk\x7d") true ("btn") (by decide)⟩

/-- Claim C5: a file that is reachable only by walking a directory entry and
whose extension is neither `.html` nor `.js` is never scanned, and its content
contributes nothing to the UsageSet, however class-like its text. -/
theorem claim5_walked_extension_filter (fs : FileSystem) (p c : String) (paths : List String)
    (h1 : endsWithHtmlOrJs p = false) (h2 : p ∉ expand_search_paths fs paths) :
    p ∉ filesToCheck fs paths
      ∧ get_used_classes (setFileContent fs p c) paths = get_used_classes fs paths := by
  constructor
  · intro hmem
    rcases mem_filesToCheck_cases hmem with hcase | hcase
    · exact h2 hcase
    · rw [h1] at hcase
      cases hcase
  · have hlist : get_used_class_list (setFileContent fs p c) paths
        = get_used_class_list fs paths := by
      unfold get_used_class_list
      rw [filesToCheck_setFileContent h2]
      apply foldl_usedStep_congr
      intro q hq
      apply lookup_setFileContent_ne
      intro heq
      subst heq
      rcases mem_filesToCheck_cases hq with hcase | hcase
      · exact h2 hcase
      · rw [h1] at hcase
        cases hcase
    rw [get_used_classes, get_used_classes, hlist]

/-- Witness for claim C5: a stylesheet lying inside a walked directory is
skipped although its text holds a class attribute. -/
theorem claim5_witness :
    endsWithHtmlOrJs ("d/s.css") = false
      ∧ ("d/s.css") ∉ expand_search_paths
          (FileSystem.mk [(("d/s.css"), ("class=\"q\""))] [(("d"), [("d/s.css")])] []) [("d")]
      ∧ (("d/s.css") ∉ filesToCheck
            (FileSystem.mk [(("d/s.css"), ("class=\"q\""))] [(("d"), [("d/s.css")])] []) [("d")]
          ∧ get_used_classes (setFileContent
              (FileSystem.mk [(("d/s.css"), ("class=\"q\""))] [(("d"), [("d/s.css")])] [])
              ("d/s.css") ("")) [("d")]
            = get_used_classes
                (FileSystem.mk [(("d/s.css"), ("class=\"q\""))] [(("d"), [("d/s.css")])] [])
                [("d")]) :=
  ⟨by decide, by decide,
    claim5_walked_extension_filter
      (FileSystem.mk [(("d/s.css"), ("class=\"q\""))] [(("d"), [("d/s.css")])] [])
      ("d/s.css") ("") [("d")] (by decide) (by decide)⟩

/-- Claim C6: every whitespace-separated token of a `class="..."` attribute
value in a scanned file is its own member of the UsageSet. -/
theorem claim6_class_attr_tokens (fs : FileSystem) (paths : List String) (p content : String)
    (g t : List Char)
    (hp : p ∈ filesToCheck fs paths)
    (hc : fs.fileContents.lookup p = some content)
    (hg : g ∈ scanClassAttr content.toList)
    (ht : t ∈ splitWs g) :
    String.mk t ∈ get_used_classes fs paths := by
  apply mem_used_of_file hp hc
  unfold extractUsedList
  apply List.mem_map_of_mem
  apply List.mem_append_left
  apply List.mem_append_left
  exact List.mem_flatMap.mpr ⟨g, hg, ht⟩

/-- Witness for claim C6: the middle token of `class="x y z"` is a UsageSet
member of its own. -/
theorem claim6_witness :
    ("a.html") ∈ filesToCheck (FileSystem.mk [(("a.html"), ("class=\"x y z\""))] [] [])
        [("a.html")]
      ∧ (FileSystem.mk [(("a.html"), ("class=\"x y z\""))] [] []).fileContents.lookup ("a.html")
          = some ("class=\"x y z\"")
      ∧ ['x', ' ', 'y', ' ', 'z'] ∈ scanClassAttr (("class=\"x y z\"").toList)
      ∧ ['y'] ∈ splitWs ['x', ' ', 'y', ' ', 'z']
      ∧ String.mk ['y'] ∈ get_used_classes
          (FileSystem.mk [(("a.html"), ("class=\"x y z\""))] [] []) [("a.html")] :=
  ⟨by decide, by decide, by decide, by decide,
    claim6_class_attr_tokens (FileSystem.mk [(("a.html"), ("class=\"x y z\""))] [] [])
      [("a.html")] ("a.html") ("class=\"x y z\"") ['x', ' ', 'y', ' ', 'z'] ['y']
      (by decide) (by decide) (by decide) (by decide)⟩

/-- Claim C7: when the computed unused set is empty, `remove_unused_from_css`
reports the distinct positive message and returns without writing, leaving the
stylesheet content unchanged. -/
theorem claim7_empty_unused_no_write (fs : FileSystem) (content : String) (paths : List String)
    (h : find_unused_classes fs content paths false = []) :
    (remove_unused_from_css fs content paths).wrote = false
      ∧ (remove_unused_from_css fs content paths).newContent = content
      ∧ (remove_unused_from_css fs content paths).message = noUnusedMessage
      ∧ ∀ n : Nat, noUnusedMessage ≠ foundMessage n := by
  rw [remove_noop_of_empty fs content paths h]
  refine ⟨rfl, rfl, rfl, ?_⟩
  intro n hn
  have hx : noUnusedMessage.toList.take 2 = (foundMessage n).toList.take 2 := by
    rw [hn]
  rw [show (foundMessage n).toList.take 2 = ['Н', 'а'] from rfl] at hx
  exact absurd hx (by decide)

/-- Witness for claim C7 at a stylesheet whose only class is used. -/
theorem claim7_witness :
    find_unused_classes (FileSystem.mk [(("f.html"), ("class=\"a\""))] [] [])
        (".a\x7bk\x7d") [("f.html")] false = []
      ∧ ((remove_unused_from_css (FileSystem.mk [(("f.html"), ("class=\"a\""))] [] [])
            (".a\x7bk\x7d") [("f.html")]).wrote = false
          ∧ (remove_unused_from_css (FileSystem.mk [(("f.html"), ("class=\"a\""))] [] [])
              (".a\x7bk\x7d") [("f.html")]).newContent = (".a\x7bk\x7d")
          ∧ (remove_unused_from_css (FileSystem.mk [(("f.html"), ("class=\"a\""))] [] [])
              (".a\x7bk\x7d") [("f.html")]).message = noUnusedMessage
          ∧ ∀ n : Nat, noUnusedMessage ≠ foundMessage n) :=
  ⟨by decide,
    claim7_empty_unused_no_write (FileSystem.mk [(("f.html"), ("class=\"a\""))] [] [])
      (".a\x7bk\x7d") [("f.html")] (by decide)⟩

/-- Claim C8 counterexample: the unused class `card-fade` matches both the
card prefix and the animation substring test, so it is printed in two buckets,
not exactly one. -/
theorem claim8_counterexample :
    ¬ (((print_unused_analysis [("card-fade")]).filter
        fun pr => pr.2.contains ("card-fade")).length = 1) := by
  decide

/-- Claim C8 as amended: every unused class is printed in at least one bucket
(possibly several, since the bucket predicates overlap), every printed bucket
is sorted ascending, and the printed total equals the size of the unused set. -/
theorem claim8_amended_report (unused : List String) (h : unused.Nodup) :
    (∀ cls ∈ unused, ∃ pr ∈ print_unused_analysis unused, cls ∈ pr.2)
      ∧ (∀ pr ∈ print_unused_analysis unused, List.Sorted (· ≤ ·) pr.2)
      ∧ reportTotal unused = unused.toFinset.card := by
  refine ⟨?_, ?_, ?_⟩
  · intro cls hcls
    by_cases hany : categoryDefs.any (fun pr => pr.2 cls) = true
    · rcases List.any_eq_true.mp hany with ⟨pr, hpr, hcl⟩
      apply mem_print_of_mem_cat unused (pr.1, unused.filter pr.2) cls
      · unfold categoriesOf
        apply List.mem_append_left
        exact List.mem_map_of_mem _ hpr
      · exact List.mem_filter.mpr ⟨hcls, hcl⟩
    · apply mem_print_of_mem_cat unused
        (("Другое"), unused.filter fun cls => !(categoryDefs.any fun pr => pr.2 cls)) cls
      · unfold categoriesOf
        apply List.mem_append_right
        exact List.mem_singleton_self _
      · refine List.mem_filter.mpr ⟨hcls, ?_⟩
        rw [Bool.not_eq_true] at hany
        rw [hany]
        rfl
  · intro pr hpr
    unfold print_unused_analysis at hpr
    rcases List.mem_filterMap.mp hpr with ⟨a, ha, hfa⟩
    by_cases he : a.2.isEmpty = true
    · rw [if_pos he] at hfa
      exact absurd hfa (by simp)
    · rw [if_neg he] at hfa
      obtain rfl := (Option.some.inj hfa).symm
      exact @List.sorted_insertionSort String (· ≤ ·) strLeDec _ _ a.2
  · rw [reportTotal]
    exact (List.toFinset_card_of_nodup h).symm

/-- Witness for the amended claim C8 on a two-class unused set. -/
theorem claim8_witness :
    ([("zzz"), ("btn-x")] : List String).Nodup
      ∧ ((∀ cls ∈ [("zzz"), ("btn-x")],
            ∃ pr ∈ print_unused_analysis [("zzz"), ("btn-x")], cls ∈ pr.2)
          ∧ (∀ pr ∈ print_unused_analysis [("zzz"), ("btn-x")], List.Sorted (· ≤ ·) pr.2)
          ∧ reportTotal [("zzz"), ("btn-x")] = ([("zzz"), ("btn-x")] : List String).toFinset.card) :=
  ⟨by decide, claim8_amended_report [("zzz"), ("btn-x")] (by decide)⟩

/-- Claim C9: the sequence returned by `find_unused_classes` is sorted in
ascending order and holds no duplicates. -/
theorem claim9_sorted_nodup (fs : FileSystem) (content : String) (paths : List String)
    (ic : Bool) :
    List.Sorted (· ≤ ·) (find_unused_classes fs content paths ic)
      ∧ (find_unused_classes fs content paths ic).Nodup :=
  ⟨@List.sorted_insertionSort String (· ≤ ·) strLeDec _ _ _,
    find_unused_nodup fs content paths ic⟩

/-- Claim C10: a wildcard-free search-path entry naming an existing regular
file is scanned whatever its extension, and its extracted classes all land in
the UsageSet. -/
theorem claim10_direct_file_scanned (fs : FileSystem) (paths : List String) (p content : String)
    (h1 : p ∈ paths) (h2 : hasWildcard p = false)
    (h3 : fs.fileContents.lookup p = some content) :
    p ∈ filesToCheck fs paths
      ∧ ∀ x ∈ extractUsedList content, x ∈ get_used_classes fs paths := by
  have hexp := mem_expand_of_plain fs h1 h2
  have hfile : fs.isFile p = true := by
    unfold FileSystem.isFile
    rw [h3]
    rfl
  have hmem := mem_filesToCheck_of_file hexp hfile
  exact ⟨hmem, fun x hx => mem_used_of_file hmem h3 hx⟩

/-- Witness for claim C10: a stylesheet passed directly as a search path is
scanned and contributes. -/
theorem claim10_witness :
    ("style.css") ∈ [("style.css")]
      ∧ hasWildcard ("style.css") = false
      ∧ (FileSystem.mk [(("style.css"), ("class=\"m\""))] [] []).fileContents.lookup
          ("style.css") = some ("class=\"m\"")
      ∧ (("style.css") ∈ filesToCheck (FileSystem.mk [(("style.css"), ("class=\"m\""))] [] [])
            [("style.css")]
          ∧ ∀ x ∈ extractUsedList ("class=\"m\""),
              x ∈ get_used_classes (FileSystem.mk [(("style.css"), ("class=\"m\""))] [] [])
                [("style.css")]) :=
  ⟨by decide, by decide, by decide,
    claim10_direct_file_scanned (FileSystem.mk [(("style.css"), ("class=\"m\""))] [] [])
      [("style.css")] ("style.css") ("class=\"m\"") (by decide) (by decide) (by decide)⟩

end CssUtils
